import Mathlib

/-!
Verification of the Quarterly Standing Engine of `src/app.py`.

The engine is a handful of pure Python functions: `standing_label`,
`quarter_key`, `parse_iso_date`, `build_quarter_totals`, `points_in_quarter`,
`all_time_points`, `calc_late_points` and the decision part of
`maybe_post_standing_alert`.  This file gives a shallow embedding of those
functions and proves the engine's stated properties.

Modelling conventions:
* Python values that flow through the dynamically-typed record fields are
  modelled by `PyVal` (none / int / string / date).  A write-up record is
  modelled by the two fields the engine reads (`incident_date`, `points`);
  the remaining fields of the stored record never influence these functions.
* Python functions that can raise (`int(...)` on a garbled value) are
  modelled in `Except String`; an `Except.error` is a raised exception.
* `pandas.DataFrame` rows of `build_quarter_totals` are modelled as a
  `List (String × Int)` in row order.  The pandas sort is modelled by
  `List.insertionSort`: the bucket keys are pairwise distinct, so every
  correct sort produces the same row list and the choice of algorithm is
  immaterial.
-/

/-- Calendar date as used by the engine (`datetime.date`): year, month, day. -/
structure Date where
  year : Nat
  month : Nat
  day : Nat
deriving DecidableEq, Repr

/-- Dynamically-typed Python value stored in a record field. -/
inductive PyVal where
  | vNone : PyVal
  | vInt : Int → PyVal
  | vStr : String → PyVal
  | vDate : Date → PyVal
deriving DecidableEq, Repr

/-- Python truthiness: `None`, `0` and `""` are falsy; a `date` is truthy. -/
def truthy : PyVal → Bool
  | .vNone => false
  | .vInt n => n != 0
  | .vStr s => s != ""
  | .vDate _ => true

/-- Value of a maximal run of decimal digits, `none` if empty or non-digit.
Used to model Python numeric-literal parsing over explicit character lists
(so that it evaluates inside the kernel). -/
def digitsVal (l : List Char) : Option Nat :=
  if l.isEmpty then none
  else if l.all (fun c => c.isDigit) then
    some (l.foldl (fun n c => n * 10 + (c.toNat - 48)) 0)
  else none

/-- Model of Python `int(s)` on a string: optional sign followed by digits.
(Python additionally strips surrounding whitespace and allows `_` digit
separators; those forms never arise in this code base.) -/
def intLiteral (s : String) : Option Int :=
  match s.data with
  | '-' :: rest => (digitsVal rest).map (fun n => -(n : Int))
  | '+' :: rest => (digitsVal rest).map (fun n => (n : Int))
  | l => (digitsVal l).map (fun n => (n : Int))

/-- Model of Python `int(v)`: ints pass through, numeric strings parse,
everything else raises (`Except.error`). -/
def pyInt : PyVal → Except String Int
  | .vInt n => .ok n
  | .vStr s =>
    match intLiteral s with
    | some n => .ok n
    | none => .error ("invalid literal for int(): " ++ s)
  | .vNone => .error "int() argument is None"
  | .vDate _ => .error "int() argument is a date"

/-- Model of the idiom `int(v or 0)` used throughout `src/app.py`:
a falsy value is replaced by `0` before conversion. -/
def pyIntOr0 (v : PyVal) : Except String Int :=
  pyInt (if truthy v then v else .vInt 0)

/-- Splits a character list on a separator character (keeping empty pieces). -/
def splitCharAux (sep : Char) : List Char → List Char → List (List Char)
  | [], acc => [acc.reverse]
  | c :: cs, acc =>
    if c = sep then acc.reverse :: splitCharAux sep cs []
    else splitCharAux sep cs (c :: acc)

/-- Modelled from the spec: `parse_iso_date` calls Python's
`datetime.fromisoformat` (standard-library code, not part of this
repository) after replacing `"Z"` with `"+00:00"`.  Per the spec (§4.1) an
ISO-8601 textual date parses and any other string yields "no date".  This
model accepts the canonical `YYYY-MM-DD` form with in-range month and day
fields. -/
def isoParse (s : String) : Option Date :=
  match splitCharAux '-' s.data [] with
  | [ys, ms, ds] =>
    match digitsVal ys, digitsVal ms, digitsVal ds with
    | some y, some m, some d =>
      if ys.length = 4 ∧ ms.length = 2 ∧ ds.length = 2 ∧
          1 ≤ m ∧ m ≤ 12 ∧ 1 ≤ d ∧ d ≤ 31 then
        some ⟨y, m, d⟩
      else none
    | _, _, _ => none
  | _ => none

/-- `parse_iso_date` (src/app.py:313-325): a falsy value yields no date,
a string is ISO-parsed (parse failure yields no date, not an error), a
native date/datetime value is taken as is, anything else yields no date. -/
def parse_iso_date (d : PyVal) : Option Date :=
  if truthy d = false then none
  else
    match d with
    | .vStr s => isoParse s
    | .vDate dt => some dt
    | _ => none

/-- `quarter_key` (src/app.py:328-330): `f"{d.year} Q{(d.month - 1) // 3 + 1}"`. -/
def quarter_key (d : Date) : String :=
  Nat.repr d.year ++ " Q" ++ Nat.repr ((d.month - 1) / 3 + 1)

/-- Quarter-of-year of a date, the number interpolated by `quarter_key`. -/
def quarterOf (d : Date) : Nat :=
  (d.month - 1) / 3 + 1

/-- Write-up record as read by the aggregation functions: `w.get("incident_date")`
and `w.get("points")`.  A missing key surfaces as `PyVal.vNone`; the record's
other fields are never read by the functions verified here. -/
structure WriteUp where
  incident_date : PyVal
  points : PyVal
deriving DecidableEq, Repr

/-- Whether a write-up's incident date parses to a calendar date. -/
def parseable (w : WriteUp) : Bool :=
  (parse_iso_date w.incident_date).isSome

/-- Dictionary update `bucket[k] = bucket.get(k, 0) + p` on an
insertion-ordered association list (Python dict semantics: an existing key
keeps its position, a new key is appended). -/
def upsert (k : String) (p : Int) : List (String × Int) → List (String × Int)
  | [] => [(k, p)]
  | (k', v) :: b =>
    if k' = k then (k', v + p) :: b else (k', v) :: upsert k p b

/-- The bucket-filling loop of `build_quarter_totals` (src/app.py:339-345):
records whose date does not parse are skipped; `int(w.get("points") or 0)`
raises on a truthy non-numeric points value. -/
def buildBucket : List WriteUp → List (String × Int) → Except String (List (String × Int))
  | [], b => .ok b
  | w :: ws, b =>
    match parse_iso_date w.incident_date with
    | none => buildBucket ws b
    | some d =>
      match pyIntOr0 w.points with
      | .ok p => buildBucket ws (upsert (quarter_key d) p b)
      | .error e => .error e

/-- `_sort_key` (src/app.py:351-353): `y, q = qstr.split(); (int(y), int(q.replace("Q", "")))`.
Python `split()` splits on whitespace and `int` raises on a malformed part;
the defaults taken by `getD` never fire on the well-formed keys produced by
`quarter_key`, which are the only strings this is applied to. -/
def sortKey (qstr : String) : Nat × Nat :=
  match splitCharAux ' ' qstr.data [] with
  | [y, q] => ((digitsVal y).getD 0, (digitsVal (q.filter (fun c => c ≠ 'Q'))).getD 0)
  | _ => (0, 0)

/-- Row order of the sorted DataFrame: ascending lexicographic comparison of
the `(year, quarter)` sort keys (Python tuple order). -/
def dfLE (x y : String × Int) : Prop :=
  (sortKey x.1).1 < (sortKey y.1).1 ∨
    ((sortKey x.1).1 = (sortKey y.1).1 ∧ (sortKey x.1).2 ≤ (sortKey y.1).2)

instance : DecidableRel dfLE := fun x y => by
  unfold dfLE
  exact inferInstance

/-- `build_quarter_totals` (src/app.py:338-357): fill the bucket, return the
empty frame for an empty bucket, otherwise the rows sorted by `_sort_key`.
The bucket's keys are pairwise distinct, so the sorted row list is the same
for every sorting algorithm; `insertionSort` stands in for the pandas sort. -/
def build_quarter_totals (ws : List WriteUp) : Except String (List (String × Int)) :=
  match buildBucket ws [] with
  | .error e => .error e
  | .ok b => if b.isEmpty then .ok [] else .ok (b.insertionSort dfLE)

/-- `points_in_quarter` (src/app.py:360-368): sum of `int(w.get("points") or 0)`
over the write-ups whose parsed date falls in the given quarter; records
without a parseable date are skipped before their points are read. -/
def points_in_quarter : List WriteUp → String → Except String Int
  | [], _ => .ok 0
  | w :: ws, q =>
    match parse_iso_date w.incident_date with
    | none => points_in_quarter ws q
    | some d =>
      if quarter_key d = q then
        match pyIntOr0 w.points with
        | .ok p =>
          match points_in_quarter ws q with
          | .ok t => .ok (p + t)
          | .error e => .error e
        | .error e => .error e
      else points_in_quarter ws q

/-- `all_time_points` (src/app.py:371-372): unconditional sum of
`int(w.get("points") or 0)` over every record, parseable date or not. -/
def all_time_points : List WriteUp → Except String Int
  | [] => .ok 0
  | w :: ws =>
    match pyIntOr0 w.points with
    | .ok p =>
      match all_time_points ws with
      | .ok t => .ok (p + t)
      | .error e => .error e
    | .error e => .error e

/-- `calc_late_points` (src/app.py:378-384): `None` yields 0; fewer than six
minutes late yields 0; otherwise `1 + (m - 5) // 10` (Python floor division,
`Int.fdiv`). -/
def calc_late_points (minutes_late : Option Int) : Int :=
  match minutes_late with
  | none => 0
  | some m => if m < 6 then 0 else 1 + Int.fdiv (m - 5) 10

/-- `standing_label` (src/app.py:249-257): `p = int(points or 0)` followed by
the tier ladder.  The argument is `Option Int` because a null total is
accepted (`None or 0` is `0`). -/
def standing_label (points : Option Int) : String :=
  let p : Int :=
    match points with
    | none => 0
    | some n => if n = 0 then 0 else n
  if p < 10 then "Good Standing"
  else if 10 ≤ p ∧ p ≤ 19 then "Borderline"
  else if 20 ≤ p ∧ p ≤ 24 then "Suspension"
  else "Fired"

/-- Decision part of `maybe_post_standing_alert` (src/app.py:483-495): the
function returns without posting when the alert webhook is unset; otherwise
it posts exactly when the new label is a watched tier different from the
previous label.  The result records whether an alert is posted; message
construction and webhook delivery (fire-and-forget `slack_post`) are the
external notification collaborator. -/
def maybe_post_standing_alert (webhook_url member_name quarter_label prev_label new_label : String)
    (q_points : Int) : Bool :=
  if webhook_url = "" then false
  else if (new_label = "Borderline" ∨ new_label = "Suspension" ∨ new_label = "Fired")
      ∧ new_label ≠ prev_label then true
  else false

/-- The four standing tiers of the spec's data model (§3). -/
inductive Tier where
  | goodStanding
  | borderline
  | suspension
  | fired
deriving DecidableEq, Repr

/-- Display label of a tier, the exact strings produced by `standing_label`. -/
def Tier.label : Tier → String
  | .goodStanding => "Good Standing"
  | .borderline => "Borderline"
  | .suspension => "Suspension"
  | .fired => "Fired"

/-- Sum of the per-quarter point values of a quarter-totals row list. -/
def sumValues (df : List (String × Int)) : Int :=
  (df.map Prod.snd).sum

/-- Point value of one write-up when its conversion succeeds, 0 otherwise
(total companion of `pyIntOr0`, used to state the aggregation lemmas). -/
def pvalD (w : WriteUp) : Int :=
  match pyIntOr0 w.points with
  | .ok n => n
  | .error _ => 0

/-- Conversion of a write-up's points value succeeds. -/
def pOk (w : WriteUp) : Prop :=
  ∃ n, pyIntOr0 w.points = Except.ok n

/-- Total companion of `all_time_points`. -/
def allT (ws : List WriteUp) : Int :=
  (ws.map pvalD).sum

/-- Total companion of the bucket-filling loop. -/
def bucketT : List WriteUp → List (String × Int) → List (String × Int)
  | [], b => b
  | w :: ws, b =>
    match parse_iso_date w.incident_date with
    | none => bucketT ws b
    | some d => bucketT ws (upsert (quarter_key d) (pvalD w) b)

/-- Total companion of `points_in_quarter`. -/
def piqT : List WriteUp → String → Int
  | [], _ => 0
  | w :: ws, q =>
    match parse_iso_date w.incident_date with
    | none => piqT ws q
    | some d => (if quarter_key d = q then pvalD w else 0) + piqT ws q

/-- Key column of a row list. -/
def keysOf (b : List (String × Int)) : List String :=
  b.map Prod.fst

/-- Decimal digit characters of a natural number, most significant first:
the recursion that `Nat.repr`'s fuelled `Nat.toDigitsCore` implements. -/
def digitsRec (n : Nat) : List Char :=
  if h : n < 10 then [Nat.digitChar n]
  else digitsRec (n / 10) ++ [Nat.digitChar (n % 10)]
termination_by n
decreasing_by exact Nat.div_lt_self (by omega) (by omega)

/-! ## Standing classifier -/

/-- The `int(p or 0)` preamble of `standing_label` never changes an integer
argument: `standing_label (some p)` follows the raw tier ladder. -/
theorem standing_label_some (p : Int) :
    standing_label (some p) =
      if p < 10 then "Good Standing"
      else if 10 ≤ p ∧ p ≤ 19 then "Borderline"
      else if 20 ≤ p ∧ p ≤ 24 then "Suspension"
      else "Fired" := by
  unfold standing_label
  rcases eq_or_ne p 0 with rfl | h
  · simp
  · simp [h]

/-- C1: for every integer point total `p ≥ 0`, `standing_label` returns
exactly one of the four tiers, with boundaries `[0,9]` Good Standing,
`[10,19]` Borderline, `[20,24]` Suspension, `[25,∞)` Fired; the four ranges
partition the non-negative integers without gaps. -/
theorem standing_label_tiers (p : Int) (hp : 0 ≤ p) :
    (standing_label (some p) = "Good Standing" ∨ standing_label (some p) = "Borderline" ∨
      standing_label (some p) = "Suspension" ∨ standing_label (some p) = "Fired") ∧
    (standing_label (some p) = "Good Standing" ↔ p ≤ 9) ∧
    (standing_label (some p) = "Borderline" ↔ 10 ≤ p ∧ p ≤ 19) ∧
    (standing_label (some p) = "Suspension" ↔ 20 ≤ p ∧ p ≤ 24) ∧
    (standing_label (some p) = "Fired" ↔ 25 ≤ p) := by
  rw [standing_label_some]
  split_ifs with h1 h2 h3 <;> simp_all <;> omega

/-- Witness for `standing_label_tiers` at the concrete total 12. -/
theorem standing_label_tiers_witness : standing_label (some 12) = "Borderline" :=
  (standing_label_tiers 12 (by decide)).2.2.1.mpr (by decide)

/-- C9: a negative or null point total is classified like 0, namely as
Good Standing. -/
theorem standing_label_negative_null (p : Int) (hp : p < 0) :
    standing_label (some p) = standing_label (some 0) ∧
    standing_label none = standing_label (some 0) ∧
    standing_label (some 0) = "Good Standing" := by
  rw [standing_label_some, standing_label_some]
  refine ⟨?_, rfl, ?_⟩ <;> split_ifs <;> simp_all <;> omega

/-- Witness for `standing_label_negative_null` at the concrete total -5. -/
theorem standing_label_negative_null_witness :
    standing_label (some (-5)) = standing_label (some 0) :=
  (standing_label_negative_null (-5) (by decide)).1

/-! ## Late-arrival points -/

/-- Floor division of natural-number casts agrees with `Nat` division. -/
theorem fdiv_natCast (a b : Nat) : Int.fdiv (a : Int) (b : Int) = ((a / b : Nat) : Int) := by
  cases a <;> simp [Int.fdiv]

/-- `calc_late_points` on a natural-number argument, written over `Nat`. -/
theorem calc_late_points_nat (m : Nat) :
    calc_late_points (some (m : Int)) =
      if m < 6 then 0 else ((1 + (m - 5) / 10 : Nat) : Int) := by
  show (if (m : Int) < 6 then 0 else 1 + Int.fdiv ((m : Int) - 5) 10) = _
  by_cases h : m < 6
  · rw [if_pos (by omega : (m : Int) < 6), if_pos h]
  · rw [if_neg (by omega : ¬ (m : Int) < 6), if_neg h]
    have h5 : (m : Int) - 5 = ((m - 5 : Nat) : Int) := by omega
    have h10 : (10 : Int) = ((10 : Nat) : Int) := rfl
    rw [h5, h10, fdiv_natCast]
    push_cast
    ring

/-- C3: for every non-negative integer `m`, `calc_late_points m` is 0 when
`m < 6` and `1 + ⌊(m-5)/10⌋` when `m ≥ 6`. -/
theorem calc_late_points_formula (m : Nat) :
    (m < 6 → calc_late_points (some (m : Int)) = 0) ∧
    (6 ≤ m → calc_late_points (some (m : Int)) = ((1 + (m - 5) / 10 : Nat) : Int)) := by
  rw [calc_late_points_nat]
  constructor
  · intro h
    rw [if_pos h]
  · intro h
    rw [if_neg (by omega)]

/-- Witness for `calc_late_points_formula` at the concrete input 27. -/
theorem calc_late_points_formula_witness : calc_late_points (some 27) = 3 := by
  have h := (calc_late_points_formula 27).2 (by decide)
  simpa using h

/-- C4 counterexample: the claimed block `[6,15] → 1` fails at `m = 15`,
where the code computes `1 + (15-5) // 10 = 2`. -/
theorem calc_late_points_block_counterexample :
    calc_late_points (some 15) = 2 ∧ calc_late_points (some 15) ≠ 1 := by decide

/-- C4 (amended): `calc_late_points` is 0 on `[0,5]`, 1 on `[6,14]`, 2 on
`[15,24]`, 3 on `[25,34]`; each further 10 minutes adds exactly one point
(`f (m+10) = f m + 1` for `m ≥ 6`), and the value is unbounded above. -/
theorem calc_late_points_blocks :
    (∀ m : Nat, m ≤ 5 → calc_late_points (some (m : Int)) = 0) ∧
    (∀ m : Nat, 6 ≤ m → m ≤ 14 → calc_late_points (some (m : Int)) = 1) ∧
    (∀ m : Nat, 15 ≤ m → m ≤ 24 → calc_late_points (some (m : Int)) = 2) ∧
    (∀ m : Nat, 25 ≤ m → m ≤ 34 → calc_late_points (some (m : Int)) = 3) ∧
    (∀ m : Nat, 6 ≤ m →
      calc_late_points (some ((m : Nat) + 10 : Nat)) = calc_late_points (some (m : Int)) + 1) ∧
    (∀ N : Nat, ∃ m : Nat, (N : Int) ≤ calc_late_points (some (m : Int))) := by
  refine ⟨?_, ?_, ?_, ?_, ?_, ?_⟩
  · intro m h
    rw [calc_late_points_nat, if_pos (by omega)]
  · intro m h1 h2
    rw [calc_late_points_nat, if_neg (by omega)]
    have : (1 + (m - 5) / 10 : Nat) = 1 := by omega
    rw [this]
    rfl
  · intro m h1 h2
    rw [calc_late_points_nat, if_neg (by omega)]
    have : (1 + (m - 5) / 10 : Nat) = 2 := by omega
    rw [this]
    rfl
  · intro m h1 h2
    rw [calc_late_points_nat, if_neg (by omega)]
    have : (1 + (m - 5) / 10 : Nat) = 3 := by omega
    rw [this]
    rfl
  · intro m h
    rw [calc_late_points_nat, calc_late_points_nat, if_neg (by omega), if_neg (by omega)]
    have : (1 + (m + 10 - 5) / 10 : Nat) = (1 + (m - 5) / 10 : Nat) + 1 := by omega
    rw [this]
    push_cast
    ring
  · intro N
    refine ⟨10 * N + 6, ?_⟩
    rw [calc_late_points_nat, if_neg (by omega)]
    have : (1 + (10 * N + 6 - 5) / 10 : Nat) = N + 1 := by omega
    rw [this]
    push_cast
    omega

/-- Witness for `calc_late_points_blocks` at the concrete input 20. -/
theorem calc_late_points_blocks_witness : calc_late_points (some 20) = 2 := by
  have h := calc_late_points_blocks.2.2.1 20 (by decide) (by decide)
  simpa using h

/-! ## Transition notifier -/

/-- C2: with the alert webhook configured, an alert is posted iff the after
tier is a watched tier (not Good Standing) and differs from the before tier;
hence no alert on entry into Good Standing, none when the tier is unchanged,
and none on downward movement out of a watched tier. -/
theorem standing_alert_decision (wh nm ql : String) (pts : Int) (hwh : wh ≠ "")
    (before after : Tier) :
    maybe_post_standing_alert wh nm ql before.label after.label pts = true ↔
      (after ≠ Tier.goodStanding ∧ after ≠ before) := by
  unfold maybe_post_standing_alert
  rw [if_neg hwh]
  cases before <;> cases after <;> simp [Tier.label]

/-- Witness for `standing_alert_decision`: Good Standing → Borderline with a
configured webhook posts an alert. -/
theorem standing_alert_decision_witness :
    maybe_post_standing_alert "https://hooks.example/x" "Ann" "2025 Q1"
      Tier.goodStanding.label Tier.borderline.label 10 = true :=
  (standing_alert_decision "https://hooks.example/x" "Ann" "2025 Q1" 10 (by decide)
    Tier.goodStanding Tier.borderline).mpr (by decide)

/-! ## Quarter keys: decimal rendering -/

/-- One-digit numbers render as a single digit character. -/
theorem digitsRec_lt_ten {n : Nat} (h : n < 10) : digitsRec n = [Nat.digitChar n] := by
  rw [digitsRec]
  exact dif_pos h

/-- Multi-digit numbers render as the rendering of their leading digits
followed by the last digit. -/
theorem digitsRec_ge_ten {n : Nat} (h : ¬ n < 10) :
    digitsRec n = digitsRec (n / 10) ++ [Nat.digitChar (n % 10)] := by
  rw [digitsRec]
  exact dif_neg h

/-- `digitsRec` agrees with the fuelled loop behind `Nat.repr` whenever the
fuel exceeds the number. -/
theorem toDigitsCore_eq :
    ∀ (fuel n : Nat) (acc : List Char), n < fuel →
      Nat.toDigitsCore 10 fuel n acc = digitsRec n ++ acc := by
  intro fuel
  induction fuel with
  | zero => intro n acc h; omega
  | succ f ih =>
    intro n acc h
    show (if n / 10 = 0 then Nat.digitChar (n % 10) :: acc
        else Nat.toDigitsCore 10 f (n / 10) (Nat.digitChar (n % 10) :: acc)) =
      digitsRec n ++ acc
    by_cases h0 : n / 10 = 0
    · rw [if_pos h0, digitsRec]
      have hn : n < 10 := by omega
      rw [dif_pos hn, Nat.mod_eq_of_lt hn]
      rfl
    · rw [if_neg h0]
      have hlt : n / 10 < f := by
        have := Nat.div_lt_self (show 0 < n by omega) (show 1 < 10 by omega)
        omega
      rw [ih (n / 10) _ hlt, digitsRec_ge_ten (show ¬ n < 10 by omega)]
      simp

/-- The characters of `Nat.repr n` are `digitsRec n`. -/
theorem repr_data_eq (n : Nat) : (Nat.repr n).data = digitsRec n := by
  show (Nat.toDigits 10 n).asString.data = digitsRec n
  rw [Nat.toDigits, toDigitsCore_eq (n + 1) n [] (Nat.lt_succ_self n)]
  simp [List.asString]

/-- `Nat.digitChar` is injective on single digits. -/
theorem digitChar_inj {a b : Nat} (ha : a < 10) (hb : b < 10)
    (h : Nat.digitChar a = Nat.digitChar b) : a = b := by
  interval_cases a <;> interval_cases b <;> revert h <;> decide

/-- `digitsRec` never returns the empty list. -/
theorem digitsRec_ne_nil (n : Nat) : digitsRec n ≠ [] := by
  rw [digitsRec]
  split <;> simp

/-- Distinct numbers have distinct digit strings. -/
theorem digitsRec_injective : ∀ a b : Nat, digitsRec a = digitsRec b → a = b := by
  intro a
  induction a using Nat.strong_induction_on with
  | _ a ih =>
    intro b h
    by_cases ha : a < 10 <;> by_cases hb : b < 10
    · rw [digitsRec_lt_ten ha, digitsRec_lt_ten hb] at h
      exact digitChar_inj ha hb (List.cons.inj h).1
    · rw [digitsRec_lt_ten ha, digitsRec_ge_ten hb] at h
      have hlen := congrArg List.length h
      simp [List.length_append] at hlen
      first
      | exact absurd hlen (digitsRec_ne_nil _)
      | exact absurd hlen.symm (digitsRec_ne_nil _)
    · rw [digitsRec_ge_ten ha, digitsRec_lt_ten hb] at h
      have hlen := congrArg List.length h
      simp [List.length_append] at hlen
      first
      | exact absurd hlen (digitsRec_ne_nil _)
      | exact absurd hlen.symm (digitsRec_ne_nil _)
    · rw [digitsRec_ge_ten ha, digitsRec_ge_ten hb] at h
      obtain ⟨h1, h2⟩ := List.append_inj' h (by simp)
      have e1 : a / 10 = b / 10 :=
        ih (a / 10) (Nat.div_lt_self (by omega) (by omega)) _ h1
      have e2 : a % 10 = b % 10 :=
        digitChar_inj (Nat.mod_lt _ (by omega)) (Nat.mod_lt _ (by omega))
          (List.cons.inj h2).1
      omega

/-- `Nat.repr` is injective. -/
theorem natRepr_inj {a b : Nat} (h : Nat.repr a = Nat.repr b) : a = b :=
  digitsRec_injective a b (by rw [← repr_data_eq, ← repr_data_eq, h])

/-- Character decomposition of a quarter key. -/
theorem quarter_key_data (d : Date) :
    (quarter_key d).data = digitsRec d.year ++ [' ', 'Q'] ++ digitsRec (quarterOf d) := by
  show (Nat.repr d.year ++ " Q" ++ Nat.repr ((d.month - 1) / 3 + 1)).data = _
  rw [String.data_append, String.data_append, repr_data_eq, repr_data_eq]
  rfl

/-- C7: `quarter_key` renders `"{year} Q{(month-1) div 3 + 1}"`; on calendar
dates two keys coincide exactly when year and quarter-of-year coincide; and
the three concrete examples of the spec hold. -/
theorem quarter_key_spec :
    (∀ d : Date, quarter_key d = Nat.repr d.year ++ " Q" ++ Nat.repr (quarterOf d)) ∧
    (∀ d1 d2 : Date, 1 ≤ d1.month → d1.month ≤ 12 → 1 ≤ d2.month → d2.month ≤ 12 →
      (quarter_key d1 = quarter_key d2 ↔
        (d1.year = d2.year ∧ quarterOf d1 = quarterOf d2))) ∧
    quarter_key ⟨2025, 1, 15⟩ = "2025 Q1" ∧
    quarter_key ⟨2025, 4, 1⟩ = "2025 Q2" ∧
    quarter_key ⟨2025, 12, 31⟩ = "2025 Q4" := by
  refine ⟨fun d => rfl, ?_, rfl, rfl, rfl⟩
  intro d1 d2 hm1 hm1' hm2 hm2'
  have hq1 : quarterOf d1 < 10 := by unfold quarterOf; omega
  have hq2 : quarterOf d2 < 10 := by unfold quarterOf; omega
  constructor
  · intro h
    have hd := congrArg String.data h
    rw [quarter_key_data, quarter_key_data, digitsRec_lt_ten hq1, digitsRec_lt_ten hq2] at hd
    obtain ⟨hleft, hrightc⟩ := List.append_inj' hd (by simp)
    obtain ⟨hyear, _⟩ := List.append_inj' hleft (by simp)
    refine ⟨digitsRec_injective _ _ hyear, ?_⟩
    exact digitChar_inj hq1 hq2 (List.cons.inj hrightc).1
  · rintro ⟨hy, hq⟩
    show Nat.repr d1.year ++ " Q" ++ Nat.repr (quarterOf d1) =
      Nat.repr d2.year ++ " Q" ++ Nat.repr (quarterOf d2)
    rw [hy, hq]

/-- Witness for `quarter_key_spec` on two concrete same-quarter dates. -/
theorem quarter_key_spec_witness :
    quarter_key ⟨2024, 2, 1⟩ = quarter_key ⟨2024, 3, 5⟩ ↔
      (Date.year ⟨2024, 2, 1⟩ = Date.year ⟨2024, 3, 5⟩ ∧
        quarterOf ⟨2024, 2, 1⟩ = quarterOf ⟨2024, 3, 5⟩) :=
  quarter_key_spec.2.1 ⟨2024, 2, 1⟩ ⟨2024, 3, 5⟩ (by decide) (by decide) (by decide) (by decide)

/-! ## Aggregation: characterization of the `Except`-valued loops -/

/-- A successful points conversion returns `pvalD`. -/
theorem pvalD_of_ok {w : WriteUp} {n : Int} (h : pyIntOr0 w.points = Except.ok n) :
    pvalD w = n := by
  unfold pvalD
  rw [h]

/-- A write-up with a successful conversion satisfies `pOk`, concretely. -/
theorem pOk_ok {w : WriteUp} (h : pOk w) : pyIntOr0 w.points = Except.ok (pvalD w) := by
  obtain ⟨n, hn⟩ := h
  rw [hn, pvalD_of_ok hn]

/-- `allT` on an empty list. -/
theorem allT_nil : allT [] = 0 := rfl

/-- `allT` on a cons. -/
theorem allT_cons (w : WriteUp) (ws : List WriteUp) : allT (w :: ws) = pvalD w + allT ws := by
  simp [allT]

/-- `all_time_points` succeeds, with value `allT`, when every record's points
value converts. -/
theorem all_time_ok : ∀ ws : List WriteUp, (∀ w ∈ ws, pOk w) →
    all_time_points ws = Except.ok (allT ws) := by
  intro ws
  induction ws with
  | nil => intro _; rfl
  | cons w ws ih =>
    intro h
    have hw := pOk_ok (h w (by simp))
    unfold all_time_points
    simp only [hw, ih (fun x hx => h x (by simp [hx])), allT_cons]

/-- Conversely, a successful `all_time_points` forces every conversion to
succeed and returns `allT`. -/
theorem all_time_ok_inv : ∀ (ws : List WriteUp) (a : Int),
    all_time_points ws = Except.ok a → (∀ w ∈ ws, pOk w) ∧ a = allT ws := by
  intro ws
  induction ws with
  | nil =>
    intro a h
    have h0 : (Except.ok (0 : Int) : Except String Int) = Except.ok a := by
      rw [← h]
      rfl
    obtain rfl := Except.ok.inj h0
    exact ⟨by simp, by simp [allT]⟩
  | cons w ws ih =>
    intro a h
    unfold all_time_points at h
    cases hp : pyIntOr0 w.points with
    | error e =>
      rw [hp] at h
      simp at h
    | ok p =>
      cases ht : all_time_points ws with
      | error e =>
        rw [hp, ht] at h
        simp at h
      | ok t =>
        rw [hp, ht] at h
        simp at h
        obtain ⟨hws, ht'⟩ := ih t ht
        subst ht'
        constructor
        · intro x hx
          rcases List.mem_cons.mp hx with rfl | hx'
          · exact ⟨p, hp⟩
          · exact hws x hx'
        · rw [allT_cons, pvalD_of_ok hp]
          omega

/-- The bucket loop succeeds, with value `bucketT`, when every record with a
parseable date has a convertible points value. -/
theorem buildBucket_ok : ∀ (ws : List WriteUp) (b : List (String × Int)),
    (∀ w ∈ ws, parseable w = true → pOk w) →
    buildBucket ws b = Except.ok (bucketT ws b) := by
  intro ws
  induction ws with
  | nil => intro b _; rfl
  | cons w ws ih =>
    intro b h
    have htail : ∀ x ∈ ws, parseable x = true → pOk x :=
      fun x hx hp => h x (by simp [hx]) hp
    cases hd : parse_iso_date w.incident_date with
    | none =>
      unfold buildBucket bucketT
      simp only [hd]
      exact ih b htail
    | some d =>
      have hw : pOk w := h w (by simp) (by simp [parseable, hd])
      unfold buildBucket bucketT
      simp only [hd, pOk_ok hw]
      exact ih _ htail

/-- Conversely, a successful bucket loop forces the conversion of every
parseable record to succeed and returns `bucketT`. -/
theorem buildBucket_ok_inv : ∀ (ws : List WriteUp) (b b' : List (String × Int)),
    buildBucket ws b = Except.ok b' →
    (∀ w ∈ ws, parseable w = true → pOk w) ∧ b' = bucketT ws b := by
  intro ws
  induction ws with
  | nil =>
    intro b b' h
    exact ⟨by simp, (Except.ok.inj h).symm⟩
  | cons w ws ih =>
    intro b b' h
    unfold buildBucket at h
    unfold bucketT
    split at h
    · rename_i hd
      obtain ⟨hws, hb⟩ := ih b b' h
      refine ⟨?_, hb⟩
      intro x hx hp
      rcases List.mem_cons.mp hx with rfl | hx'
      · exact absurd hp (by simp [parseable, hd])
      · exact hws x hx' hp
    · rename_i d hd
      split at h
      · rename_i p hp
        obtain ⟨hws, hb⟩ := ih _ b' h
        constructor
        · intro x hx _
          rcases List.mem_cons.mp hx with rfl | hx'
          · exact ⟨p, hp⟩
          · exact hws x hx' (by assumption)
        · rw [pvalD_of_ok hp]
          exact hb
      · simp at h

/-- `points_in_quarter` succeeds, with value `piqT`, when every record with a
parseable date has a convertible points value. -/
theorem points_in_quarter_ok : ∀ (ws : List WriteUp) (q : String),
    (∀ w ∈ ws, parseable w = true → pOk w) →
    points_in_quarter ws q = Except.ok (piqT ws q) := by
  intro ws
  induction ws with
  | nil => intro q _; rfl
  | cons w ws ih =>
    intro q h
    have hrest := ih q (fun x hx hp => h x (by simp [hx]) hp)
    cases hd : parse_iso_date w.incident_date with
    | none =>
      unfold points_in_quarter piqT
      simp only [hd]
      exact hrest
    | some d =>
      have hw : pOk w := h w (by simp) (by simp [parseable, hd])
      unfold points_in_quarter piqT
      simp only [hd]
      by_cases hq : quarter_key d = q
      · rw [if_pos hq, if_pos hq, pOk_ok hw, hrest]
      · rw [if_neg hq, if_neg hq, hrest]
        simp

/-! ## Aggregation: bucket algebra -/

/-- `keysOf` on a cons. -/
theorem keysOf_cons (x : String × Int) (b : List (String × Int)) :
    keysOf (x :: b) = x.1 :: keysOf b := rfl

/-- Upserting adds the inserted points to the value total. -/
theorem sumValues_upsert (k : String) (p : Int) :
    ∀ b : List (String × Int), sumValues (upsert k p b) = sumValues b + p := by
  intro b
  induction b with
  | nil => simp [upsert, sumValues]
  | cons kv b ih =>
    obtain ⟨k₀, v⟩ := kv
    unfold upsert
    by_cases h : k₀ = k
    · rw [if_pos h]
      simp [sumValues]
      ring
    · rw [if_neg h]
      simp [sumValues] at ih ⊢
      omega

/-- Looking up the upserted key finds the old value plus the insertion. -/
theorem lookupD_upsert_self (k : String) (p : Int) :
    ∀ b : List (String × Int),
      ((upsert k p b).lookup k).getD 0 = (b.lookup k).getD 0 + p := by
  intro b
  induction b with
  | nil => simp [upsert, List.lookup]
  | cons kv b ih =>
    obtain ⟨k₀, v⟩ := kv
    unfold upsert
    by_cases h : k₀ = k
    · rw [if_pos h]
      subst h
      simp [List.lookup]
    · rw [if_neg h]
      have hne : (k == k₀) = false := by
        simp [beq_iff_eq]
        exact fun hh => h hh.symm
      simp [List.lookup, hne]
      exact ih

/-- Looking up a different key is unaffected by an upsert. -/
theorem lookupD_upsert_ne (k k' : String) (p : Int) (hk : k ≠ k') :
    ∀ b : List (String × Int),
      ((upsert k' p b).lookup k).getD 0 = (b.lookup k).getD 0 := by
  intro b
  induction b with
  | nil =>
    have hne : (k == k') = false := by simp [beq_iff_eq, hk]
    simp [upsert, List.lookup, hne]
  | cons kv b ih =>
    obtain ⟨k₀, v⟩ := kv
    unfold upsert
    by_cases h : k₀ = k'
    · rw [if_pos h]
      have hne : (k == k₀) = false := by
        simp [beq_iff_eq]
        intro hh
        exact hk (hh.trans h)
      simp [List.lookup, hne]
    · rw [if_neg h]
      by_cases hk0 : k = k₀
      · subst hk0
        simp [List.lookup]
      · have hne : (k == k₀) = false := by simp [beq_iff_eq, hk0]
        simp [List.lookup, hne]
        exact ih

/-- Membership in the key column after an upsert. -/
theorem mem_keysOf_upsert (x k : String) (p : Int) :
    ∀ b : List (String × Int), (x ∈ keysOf (upsert k p b) ↔ x ∈ keysOf b ∨ x = k) := by
  intro b
  induction b with
  | nil => simp [upsert, keysOf]
  | cons kv b ih =>
    obtain ⟨k₀, v⟩ := kv
    unfold upsert
    by_cases h : k₀ = k
    · rw [if_pos h]
      subst h
      simp [keysOf_cons]
      tauto
    · rw [if_neg h]
      rw [keysOf_cons, keysOf_cons]
      simp only [List.mem_cons]
      rw [ih]
      tauto

/-- Upserting preserves distinctness of the key column. -/
theorem nodup_keysOf_upsert (k : String) (p : Int) :
    ∀ b : List (String × Int), (keysOf b).Nodup → (keysOf (upsert k p b)).Nodup := by
  intro b
  induction b with
  | nil => intro _; simp [upsert, keysOf]
  | cons kv b ih =>
    obtain ⟨k₀, v⟩ := kv
    intro h
    rw [keysOf_cons] at h
    obtain ⟨hk₀, hb⟩ := List.nodup_cons.mp h
    unfold upsert
    by_cases h0 : k₀ = k
    · rw [if_pos h0, keysOf_cons]
      exact List.nodup_cons.mpr ⟨hk₀, hb⟩
    · rw [if_neg h0, keysOf_cons]
      refine List.nodup_cons.mpr ⟨?_, ih hb⟩
      intro hmem
      rcases (mem_keysOf_upsert k₀ k p b).mp hmem with hc | hc
      · exact hk₀ hc
      · exact h0 hc

/-- The bucket loop preserves distinctness of the key column. -/
theorem nodup_keysOf_bucketT : ∀ (ws : List WriteUp) (b : List (String × Int)),
    (keysOf b).Nodup → (keysOf (bucketT ws b)).Nodup := by
  intro ws
  induction ws with
  | nil => intro b h; exact h
  | cons w ws ih =>
    intro b h
    unfold bucketT
    cases hd : parse_iso_date w.incident_date with
    | none =>
      simp only [hd]
      exact ih b h
    | some d =>
      simp only [hd]
      exact ih _ (nodup_keysOf_upsert _ _ b h)

/-- Association-list lookup is invariant under permutation when the keys are
pairwise distinct. -/
theorem perm_lookup_eq : ∀ {l₁ l₂ : List (String × Int)}, List.Perm l₁ l₂ →
    (keysOf l₁).Nodup → ∀ k, List.lookup k l₁ = List.lookup k l₂ := by
  intro l₁ l₂ h
  induction h with
  | nil => intro _ _; rfl
  | cons x h ih =>
    intro hn k
    rw [keysOf_cons] at hn
    obtain ⟨hx, htail⟩ := List.nodup_cons.mp hn
    obtain ⟨x₁, x₂⟩ := x
    cases hbe : (k == x₁) <;> simp [List.lookup, hbe] <;> exact ih htail k
  | swap x y l =>
    intro hn k
    obtain ⟨x₁, x₂⟩ := x
    obtain ⟨y₁, y₂⟩ := y
    rw [keysOf_cons, keysOf_cons] at hn
    have hyx : y₁ ≠ x₁ := by
      have := (List.nodup_cons.mp hn).1
      simp at this
      exact this.1
    cases hby : (k == y₁) <;> cases hbx : (k == x₁) <;>
      simp [List.lookup, hby, hbx]
    exact absurd ((eq_of_beq hby).symm.trans (eq_of_beq hbx)) hyx
  | trans h₁ h₂ ih₁ ih₂ =>
    intro hn k
    rw [ih₁ hn k]
    refine ih₂ ?_ k
    exact (h₁.map Prod.fst).nodup hn

/-- The bucket's value total is the starting total plus the points of the
records with parseable dates. -/
theorem sumValues_bucketT : ∀ (ws : List WriteUp) (b : List (String × Int)),
    sumValues (bucketT ws b) = sumValues b + allT (ws.filter (fun w => parseable w)) := by
  intro ws
  induction ws with
  | nil => intro b; simp [bucketT, allT]
  | cons w ws ih =>
    intro b
    unfold bucketT
    cases hd : parse_iso_date w.incident_date with
    | none =>
      simp only [hd]
      rw [ih b]
      have hp : parseable w = false := by simp [parseable, hd]
      simp [List.filter_cons, hp]
    | some d =>
      simp only [hd]
      rw [ih _, sumValues_upsert]
      have hp : parseable w = true := by simp [parseable, hd]
      simp [List.filter_cons, hp, allT_cons]
      ring

/-- `allT` splits along the parseable/unparseable partition. -/
theorem allT_split : ∀ ws : List WriteUp,
    allT ws = allT (ws.filter (fun w => parseable w)) +
      allT (ws.filter (fun w => !parseable w)) := by
  intro ws
  induction ws with
  | nil => simp [allT]
  | cons w ws ih =>
    cases hp : parseable w <;>
      simp [List.filter_cons, hp, allT_cons, ih] <;> omega

/-- `allT` of a list of non-negative point values is non-negative. -/
theorem allT_nonneg : ∀ ws : List WriteUp, (∀ w ∈ ws, 0 ≤ pvalD w) → 0 ≤ allT ws := by
  intro ws
  induction ws with
  | nil => intro _; simp [allT]
  | cons w ws ih =>
    intro h
    rw [allT_cons]
    have h1 := h w (by simp)
    have h2 := ih (fun x hx => h x (by simp [hx]))
    omega

/-- For non-negative point values, `allT` vanishes exactly when every value
vanishes. -/
theorem allT_eq_zero_iff : ∀ ws : List WriteUp, (∀ w ∈ ws, 0 ≤ pvalD w) →
    (allT ws = 0 ↔ ∀ w ∈ ws, pvalD w = 0) := by
  intro ws
  induction ws with
  | nil => intro _; simp [allT]
  | cons w ws ih =>
    intro h
    rw [allT_cons]
    have h0 := h w (by simp)
    have htail : ∀ x ∈ ws, 0 ≤ pvalD x := fun x hx => h x (by simp [hx])
    have hnn := allT_nonneg ws htail
    constructor
    · intro hz
      have hw0 : pvalD w = 0 := by omega
      have hts : allT ws = 0 := by omega
      intro x hx
      rcases List.mem_cons.mp hx with rfl | hx'
      · exact hw0
      · exact (ih htail).mp hts x hx'
    · intro hall
      have e1 : pvalD w = 0 := hall w (by simp)
      have e2 : allT ws = 0 := (ih htail).mpr (fun x hx => hall x (by simp [hx]))
      omega

/-- Lookup in the bucket decomposes as initial lookup plus the quarter's
point total. -/
theorem lookupD_bucketT : ∀ (ws : List WriteUp) (b : List (String × Int)) (k : String),
    ((bucketT ws b).lookup k).getD 0 = (b.lookup k).getD 0 + piqT ws k := by
  intro ws
  induction ws with
  | nil => intro b k; simp [bucketT, piqT]
  | cons w ws ih =>
    intro b k
    unfold bucketT piqT
    cases hd : parse_iso_date w.incident_date with
    | none =>
      simp only [hd]
      rw [ih]
    | some d =>
      simp only [hd]
      rw [ih]
      by_cases hq : quarter_key d = k
      · rw [← hq, lookupD_upsert_self, if_pos rfl]
        ring
      · rw [lookupD_upsert_ne k (quarter_key d) (pvalD w) (fun hh => hq hh.symm),
          if_neg hq]
        ring

/-- A successful `build_quarter_totals` forces every parseable record's
conversion to succeed and returns a permutation of the bucket. -/
theorem build_qt_ok_inv (ws : List WriteUp) (df : List (String × Int))
    (h : build_quarter_totals ws = Except.ok df) :
    (∀ w ∈ ws, parseable w = true → pOk w) ∧ List.Perm df (bucketT ws []) := by
  unfold build_quarter_totals at h
  cases hb : buildBucket ws [] with
  | error e =>
    rw [hb] at h
    simp at h
  | ok b =>
    obtain ⟨hws, hbt⟩ := buildBucket_ok_inv ws [] b hb
    subst hbt
    simp only [hb] at h
    by_cases he : (bucketT ws []).isEmpty
    · rw [if_pos he] at h
      have hb0 : bucketT ws [] = [] := List.isEmpty_iff.mp he
      have hdf : df = [] := (Except.ok.inj h).symm
      rw [hdf, hb0]
      exact ⟨hws, List.Perm.refl []⟩
    · rw [if_neg he] at h
      have hdf : df = (bucketT ws []).insertionSort dfLE := (Except.ok.inj h).symm
      rw [hdf]
      exact ⟨hws, List.perm_insertionSort _ _⟩

/-- When no record has a parseable date, the bucket loop leaves the bucket
untouched and cannot raise. -/
theorem buildBucket_unparseable : ∀ (ws : List WriteUp) (b : List (String × Int)),
    (∀ w ∈ ws, parseable w = false) → buildBucket ws b = Except.ok b := by
  intro ws
  induction ws with
  | nil => intro b _; rfl
  | cons w ws ih =>
    intro b h
    cases hd : parse_iso_date w.incident_date with
    | some d => exact absurd (h w (by simp)) (by simp [parseable, hd])
    | none =>
      unfold buildBucket
      simp only [hd]
      exact ih b (fun x hx => h x (by simp [hx]))

/-- When no record has a parseable date, `points_in_quarter` is 0 and cannot
raise. -/
theorem points_in_quarter_unparseable : ∀ (ws : List WriteUp) (q : String),
    (∀ w ∈ ws, parseable w = false) → points_in_quarter ws q = Except.ok 0 := by
  intro ws
  induction ws with
  | nil => intro q _; rfl
  | cons w ws ih =>
    intro q h
    cases hd : parse_iso_date w.incident_date with
    | some d => exact absurd (h w (by simp)) (by simp [parseable, hd])
    | none =>
      unfold points_in_quarter
      simp only [hd]
      exact ih q (fun x hx => h x (by simp [hx]))

/-! ## Claim theorems for the aggregator -/

/-- C5: summing the per-quarter totals of `build_quarter_totals` equals
`all_time_points` restricted to the write-ups whose incident date parses,
and the difference from the full `all_time_points` is exactly the point
mass of the write-ups with unparseable dates. -/
theorem quarter_totals_consistency (ws : List WriteUp) (df : List (String × Int))
    (a ap au : Int)
    (hdf : build_quarter_totals ws = Except.ok df)
    (ha : all_time_points ws = Except.ok a)
    (hap : all_time_points (ws.filter (fun w => parseable w)) = Except.ok ap)
    (hau : all_time_points (ws.filter (fun w => !parseable w)) = Except.ok au) :
    sumValues df = ap ∧ a - sumValues df = au := by
  obtain ⟨hpok, hperm⟩ := build_qt_ok_inv ws df hdf
  obtain ⟨_, ha'⟩ := all_time_ok_inv _ _ ha
  obtain ⟨_, hap'⟩ := all_time_ok_inv _ _ hap
  obtain ⟨_, hau'⟩ := all_time_ok_inv _ _ hau
  have hsum : sumValues df = sumValues (bucketT ws []) := by
    unfold sumValues
    exact (hperm.map Prod.snd).sum_eq
  rw [hsum, sumValues_bucketT]
  have hsplit := allT_split ws
  constructor
  · rw [hap']
    simp [sumValues]
  · rw [ha', hau']
    simp only [sumValues, List.map_nil, List.sum_nil, zero_add]
    omega

/-- Witness for `quarter_totals_consistency`: one parseable 4-point record
and one date-less 3-point record. -/
theorem quarter_totals_consistency_witness :
    sumValues [("2025 Q1", (4 : Int))] = 4 :=
  (quarter_totals_consistency
    [⟨PyVal.vDate ⟨2025, 1, 15⟩, PyVal.vInt 4⟩, ⟨PyVal.vNone, PyVal.vInt 3⟩]
    [("2025 Q1", 4)] 7 4 3 rfl rfl rfl rfl).1

/-- C6 counterexample: for the single write-up with no incident date and zero
points, the quarter-total sum equals the all-time total even though the
write-up's date is not parseable, refuting "equality iff every write-up has a
parseable incident date". -/
theorem quarter_sum_iff_counterexample :
    build_quarter_totals [⟨PyVal.vNone, PyVal.vInt 0⟩] = Except.ok [] ∧
    all_time_points [⟨PyVal.vNone, PyVal.vInt 0⟩] = Except.ok 0 ∧
    sumValues [] = 0 ∧
    parseable ⟨PyVal.vNone, PyVal.vInt 0⟩ = false :=
  ⟨rfl, rfl, rfl, rfl⟩

/-- C6 (amended): for write-ups with non-negative points, the quarter-total
sum is at most `all_time_points`, with equality exactly when every write-up
without a parseable incident date carries zero points (in particular whenever
every date parses). -/
theorem quarter_sum_le_all_time (ws : List WriteUp) (df : List (String × Int)) (a : Int)
    (hdf : build_quarter_totals ws = Except.ok df)
    (ha : all_time_points ws = Except.ok a)
    (hnn : ∀ w ∈ ws, 0 ≤ pvalD w) :
    sumValues df ≤ a ∧
      (sumValues df = a ↔ ∀ w ∈ ws, parseable w = false → pvalD w = 0) := by
  obtain ⟨hpok, hperm⟩ := build_qt_ok_inv ws df hdf
  obtain ⟨_, ha'⟩ := all_time_ok_inv _ _ ha
  have hsum : sumValues df = sumValues (bucketT ws []) := by
    unfold sumValues
    exact (hperm.map Prod.snd).sum_eq
  rw [hsum, sumValues_bucketT, ha']
  have hsplit := allT_split ws
  have hnnu : ∀ w ∈ ws.filter (fun w => !parseable w), 0 ≤ pvalD w :=
    fun x hx => hnn x (List.mem_of_mem_filter hx)
  have hnonneg := allT_nonneg _ hnnu
  have hzero := allT_eq_zero_iff _ hnnu
  constructor
  · simp only [sumValues, List.map_nil, List.sum_nil, zero_add]
    omega
  · simp only [sumValues, List.map_nil, List.sum_nil, zero_add]
    constructor
    · intro he
      have h0 : allT (ws.filter (fun w => !parseable w)) = 0 := by omega
      intro x hx hpx
      refine hzero.mp h0 x ?_
      simp [List.mem_filter, hx, hpx]
    · intro hall
      have h0 : allT (ws.filter (fun w => !parseable w)) = 0 := by
        refine hzero.mpr ?_
        intro x hx
        obtain ⟨hx1, hx2⟩ := List.mem_filter.mp hx
        refine hall x hx1 ?_
        simpa using hx2
      omega

/-- Witness for `quarter_sum_le_all_time` on a single dated record. -/
theorem quarter_sum_le_all_time_witness :
    sumValues [("2025 Q1", (4 : Int))] ≤ 4 :=
  (quarter_sum_le_all_time [⟨PyVal.vDate ⟨2025, 1, 15⟩, PyVal.vInt 4⟩]
    [("2025 Q1", 4)] 4 rfl rfl (by decide)).1

/-- C10: `points_in_quarter` agrees with `build_quarter_totals` on every
quarter key: the value recorded for the key when present, 0 when absent. -/
theorem points_in_quarter_agrees (ws : List WriteUp) (k : String)
    (df : List (String × Int)) (hdf : build_quarter_totals ws = Except.ok df) :
    points_in_quarter ws k = Except.ok ((df.lookup k).getD 0) := by
  obtain ⟨hpok, hperm⟩ := build_qt_ok_inv ws df hdf
  rw [points_in_quarter_ok ws k hpok]
  have hnodup : (keysOf (bucketT ws [])).Nodup :=
    nodup_keysOf_bucketT ws [] (by simp [keysOf])
  have hnodupdf : (keysOf df).Nodup := (hperm.map Prod.fst).symm.nodup hnodup
  have hlk : (df.lookup k).getD 0 = piqT ws k := by
    rw [perm_lookup_eq hperm hnodupdf k, lookupD_bucketT]
    simp [List.lookup]
  rw [hlk]

/-- Witness for `points_in_quarter_agrees` on a single dated record. -/
theorem points_in_quarter_agrees_witness :
    points_in_quarter [⟨PyVal.vDate ⟨2025, 1, 15⟩, PyVal.vInt 4⟩] "2025 Q1" =
      Except.ok ((([("2025 Q1", (4 : Int))]).lookup "2025 Q1").getD 0) :=
  points_in_quarter_agrees [⟨PyVal.vDate ⟨2025, 1, 15⟩, PyVal.vInt 4⟩] "2025 Q1"
    [("2025 Q1", 4)] rfl

/-- C8 counterexample: a truthy non-numeric points value is not treated as 0:
`all_time_points` raises (`int("x")` fails) on a record carrying it. -/
theorem garbled_points_counterexample :
    all_time_points [⟨PyVal.vNone, PyVal.vStr "x"⟩] =
      Except.error "invalid literal for int(): x" := rfl

/-- C8 (amended): a missing, null or otherwise falsy points value is treated
as 0 and never raises; when every record's points value converts (falsy or
numeric), all three aggregation functions return normally; and records whose
incident date does not parse are skipped by `build_quarter_totals` and
`points_in_quarter` before their points are read, so those two return
normally on such records whatever their points value.  A truthy non-numeric
points value raises in `all_time_points` (see the counterexample). -/
theorem points_error_handling :
    (∀ v : PyVal, truthy v = false → pyIntOr0 v = Except.ok 0) ∧
    (∀ ws : List WriteUp, (∀ w ∈ ws, pOk w) →
      (∃ a, all_time_points ws = Except.ok a) ∧
      (∃ df, build_quarter_totals ws = Except.ok df) ∧
      (∀ q, ∃ t, points_in_quarter ws q = Except.ok t)) ∧
    (∀ ws : List WriteUp, (∀ w ∈ ws, parseable w = false) →
      build_quarter_totals ws = Except.ok [] ∧
      (∀ q, points_in_quarter ws q = Except.ok 0)) := by
  refine ⟨?_, ?_, ?_⟩
  · intro v hv
    simp [pyIntOr0, hv, pyInt]
  · intro ws h
    have hpok : ∀ w ∈ ws, parseable w = true → pOk w := fun w hw _ => h w hw
    refine ⟨⟨allT ws, all_time_ok ws h⟩, ?_,
      fun q => ⟨piqT ws q, points_in_quarter_ok ws q hpok⟩⟩
    unfold build_quarter_totals
    simp only [buildBucket_ok ws [] hpok]
    by_cases he : (bucketT ws []).isEmpty
    · rw [if_pos he]
      exact ⟨[], rfl⟩
    · rw [if_neg he]
      exact ⟨_, rfl⟩
  · intro ws h
    constructor
    · unfold build_quarter_totals
      simp only [buildBucket_unparseable ws [] h]
      rfl
    · intro q
      exact points_in_quarter_unparseable ws q h

/-- Witness for `points_error_handling`: a null points value is read as 0. -/
theorem points_error_handling_witness : pyIntOr0 PyVal.vNone = Except.ok 0 :=
  points_error_handling.1 PyVal.vNone rfl
